import Mathlib

/-!
Verification of the retrieval pipeline of the Personalized-Chatbot repository.

Shallow embedding of:
* `src/rag/FusionRetriever.py` (`FusionRetriever.fuse`)
* `src/rag/rerank.py` (`Reranker.rerank`)
* `src/rag/auto_merging_retriever.py` (`AutoMergingRetriever`)
* `src/services/rag_strategies/*` (strategy `generate_answer`, query-variant
  parsing, LLM-ranking parsing, strategy factory)

Python machine-level details modelled explicitly: `dict` preserves insertion
order (association lists), `sorted`/`list.sort` are stable (stable insertion
sorts), float scores are modelled over `ℚ`, truthiness of strings (`""` is
falsy) and of `Option` values is modelled where the source relies on it.
-/

set_option maxHeartbeats 1000000

/-! ## FusionRetriever (src/rag/FusionRetriever.py)

```python
def fuse(self, results, top_k=5):
    scores = defaultdict(float)
    for retriever_output in results:
        for rank, doc in enumerate(retriever_output):
            scores[doc] += 1 / (self.k + rank + 1)
    fused = sorted(scores.items(), key=lambda x: x[1], reverse=True)
    return [doc for doc, _ in fused[:top_k]]
```
-/

/-- The RRF contribution of position `rank` (0-based) with smoothing
constant `k`: `1 / (k + rank + 1)`. -/
def rrfScore (k rank : ℕ) : ℚ := 1 / ((k : ℚ) + (rank : ℚ) + 1)

/-- `scores[doc] += v` on an insertion-ordered association list
(Python `defaultdict(float)`): update the first entry with key `doc`,
or append a fresh entry at the end. -/
def addScore (sc : List (String × ℚ)) (doc : String) (v : ℚ) : List (String × ℚ) :=
  match sc with
  | [] => [(doc, v)]
  | (d, s) :: rest => if d = doc then (d, s + v) :: rest else (d, s) :: addScore rest doc v

/-- The inner loop `for rank, doc in enumerate(retriever_output)`,
threading the current rank. -/
def scoreRankingAux (k : ℕ) (rank : ℕ) (sc : List (String × ℚ)) :
    List String → List (String × ℚ)
  | [] => sc
  | d :: ds => scoreRankingAux k (rank + 1) (addScore sc d (rrfScore k rank)) ds

/-- One step of `insertByScore`-sorting: place `x` before the first entry whose
score is `≤ x`'s (keeping `x` after all strictly greater scores).  Folded over
a list this is the stable descending sort that Python's
`sorted(..., key=score, reverse=True)` performs. -/
def insertByScore (x : String × ℚ) : List (String × ℚ) → List (String × ℚ)
  | [] => [x]
  | y :: ys => if y.2 ≤ x.2 then x :: y :: ys else y :: insertByScore x ys

/-- Stable descending sort by score (Python `sorted(items, key=score,
reverse=True)`: descending scores, ties kept in original order). -/
def sortByScoreDesc : List (String × ℚ) → List (String × ℚ)
  | [] => []
  | x :: xs => insertByScore x (sortByScoreDesc xs)

/-- `FusionRetriever.fuse`: fold every ranking into the score map, sort
stably by score descending, return the texts of the first `top_k` entries. -/
def fuse (results : List (List String)) (k : ℕ) (top_k : ℕ) : List String :=
  let scores := results.foldl (fun sc r => scoreRankingAux k 0 sc r) []
  ((sortByScoreDesc scores).map Prod.fst).take top_k

/-! ### Spec-side description of `fuse` (§4.2 of the spec)

A second definition written from the spec's words, to be compared with
`fuse`: each distinct text gets the sum of `1/(k+rank+1)` over all of its
occurrences across all rankings; candidates are listed in original relative
order (first occurrence) and stably sorted by score descending; only the
texts of the top `top_k` are returned. -/

/-- Append `d` to the key list if it is not already present. -/
def insertKey (acc : List String) (d : String) : List String :=
  if d ∈ acc then acc else acc ++ [d]

/-- The keys (texts) of a score list, in order. -/
def keysOf (sc : List (String × ℚ)) : List String := sc.map Prod.fst

/-- The score accumulated for `t` (0 if absent; first entry wins, matching
lookup in a key-unique association list). -/
def getScore (sc : List (String × ℚ)) (t : String) : ℚ :=
  match sc with
  | [] => 0
  | (d, s) :: rest => if d = t then s else getScore rest t

/-- The total RRF contribution of text `t` in one ranking, starting at
position `rank`: the sum of `1/(k+pos+1)` over every position `pos ≥ rank`
where `t` occurs. -/
def occScoreFrom (k : ℕ) (rank : ℕ) (t : String) : List String → ℚ
  | [] => 0
  | d :: ds => (if d = t then rrfScore k rank else 0) + occScoreFrom k (rank + 1) t ds

/-- Spec: the distinct candidate texts in original relative order
(order of first occurrence across the rankings, scanned in order). -/
def specKeys (results : List (List String)) : List String :=
  results.foldl (fun acc r => r.foldl insertKey acc) []

/-- Spec: the score of text `t` — the sum over all rankings of the
`1/(k+rank+1)` contributions of every occurrence of `t`. -/
def specScore (results : List (List String)) (k : ℕ) (t : String) : ℚ :=
  results.foldl (fun acc r => acc + occScoreFrom k 0 t r) 0

/-- Spec-side `fuse`: score every distinct text, sort stably by score
descending, return the texts of the top `top_k`. -/
def specFuse (results : List (List String)) (k : ℕ) (top_k : ℕ) : List String :=
  ((sortByScoreDesc ((specKeys results).map fun t => (t, specScore results k t))).map
    Prod.fst).take top_k

/-- The score list produced by one duplicate-free ranking: each text paired
with its single positional contribution. -/
def rankScores (k : ℕ) : ℕ → List String → List (String × ℚ)
  | _, [] => []
  | rank, d :: ds => (d, rrfScore k rank) :: rankScores k (rank + 1) ds

/-! ## Reranker (src/rag/rerank.py)

```python
def rerank(self, query, docs, top_k=5):
    if not self.enabled or not self.model:
        return [(doc, 1.0) for doc in docs[:top_k]]
    pairs = [(query, doc) for doc in docs]
    scores = self.model.predict(pairs, batch_size=16)
    scored = list(zip(docs, scores))
    scored.sort(key=lambda x: x[1], reverse=True)
    return scored[:top_k]
```
The cross-encoder model is an external collaborator, modelled as an optional
scoring function on (query, doc) pairs; `enabled`/`model` are set together in
`__init__` depending on whether model construction raised. -/

structure Reranker where
  enabled : Bool
  model : Option (List (String × String) → List ℚ)

def Reranker.rerank (r : Reranker) (query : String) (docs : List String)
    (top_k : ℕ) : List (String × ℚ) :=
  match r.enabled, r.model with
  | true, some m =>
      let pairs := docs.map (fun doc => (query, doc))
      let scores := m pairs
      let scored := docs.zip scores
      (sortByScoreDesc scored).take top_k
  | _, _ => (docs.take top_k).map (fun doc => (doc, 1))

/-! ## RAGStrategyFactory (src/services/rag_strategies/RAGStrategyFactory.py)

`create_strategy` dispatches on `rag_type` against `RAGTypeEnum` values
`"basic" | "fusion" | "rerank"`; anything else logs a warning and falls back
to `BasicRAGStrategy`.  Shared collaborators are injected uniformly and are
irrelevant to dispatch, so a strategy is modelled by its tag and its
strategy-specific tunables (`num_queries` default 3,
`initial_retrieve_multiplier` default 3); `kwargs` is modelled by two
optional tunables. -/

inductive Strategy where
  | basic : Strategy
  | fusion : ℕ → Strategy
  | rerank : ℕ → Strategy
deriving DecidableEq

/-- `get_strategy_name` of the class the factory instantiated. -/
def getStrategyName : Strategy → String
  | .basic => "Basic RAG"
  | .fusion _ => "Fusion RAG (Query Expansion + RRF)"
  | .rerank _ => "ReRank RAG (Two-Stage Retrieval)"

/-- `RAGStrategyFactory.create_strategy`. -/
def createStrategy (rag_type : String) (numQueries : Option ℕ)
    (initialRetrieveMultiplier : Option ℕ) : Strategy :=
  if rag_type = "basic" then .basic
  else if rag_type = "fusion" then .fusion (numQueries.getD 3)
  else if rag_type = "rerank" then .rerank (initialRetrieveMultiplier.getD 3)
  else .basic

/-! ## AutoMergingRetriever (src/rag/auto_merging_retriever.py)

Metadata is a Python dict; only the keys the merger reads are modelled.
For the ordinal keys, `some n` stands for "present and parses as `int`"
(a present but unparsable value is skipped by the `try/except` exactly like
an absent one).  For the string keys, Python truthiness applies: `None` and
`""` both fall through the `or`-chain, so `some ""` is treated as falsy. -/

structure Metadata where
  source : Option String := none
  file_name : Option String := none
  path : Option String := none
  chunk : Option Int := none
  chunk_index : Option Int := none
  page : Option Int := none
  page_number : Option Int := none
  part : Option Int := none
  id : Option String := none
deriving DecidableEq

/-- A LangChain `Document`: `page_content` plus optional metadata
(`none` models a falsy — absent or empty — metadata dict). -/
structure Doc where
  page_content : String
  metadata : Option Metadata
deriving DecidableEq

/-- Python truthiness filter on an optional string (`""` is falsy). -/
def truthyStr : Option String → Option String
  | some s => if s = "" then none else some s
  | none => none

/-- The source identifier of a metadata dict:
`metadata.get("source") or metadata.get("file_name") or metadata.get("path")`
with fallback `"unknown_source"`. -/
def srcOfMeta (md : Option Metadata) : String :=
  match md with
  | none => "unknown_source"
  | some m =>
      match truthyStr m.source <|> truthyStr m.file_name <|> truthyStr m.path with
      | some s => s
      | none => "unknown_source"

/-- `_group_by_source`'s key for one document. -/
def srcOf (doc : Doc) : String := srcOfMeta doc.metadata

/-- `_order_docs.sort_key`: the first present ordinal among
`chunk, chunk_index, page, page_number, part`, else 0. -/
def sortKey (doc : Doc) : Int :=
  match doc.metadata with
  | none => 0
  | some md => (md.chunk <|> md.chunk_index <|> md.page <|> md.page_number <|> md.part).getD 0

/-- Insert into a key-ascending list before the first element of
greater-or-equal key — the stable ascending insertion step. -/
def insertAsc (x : Doc) : List Doc → List Doc
  | [] => [x]
  | y :: ys => if sortKey x ≤ sortKey y then x :: y :: ys else y :: insertAsc x ys

/-- `_order_docs`: Python's stable `sorted(docs, key=sort_key)`. -/
def orderDocs : List Doc → List Doc
  | [] => []
  | x :: xs => insertAsc x (orderDocs xs)

/-- `groups.setdefault(src, []).append(doc)` on an insertion-ordered dict. -/
def addToGroup (groups : List (String × List Doc)) (s : String) (d : Doc) :
    List (String × List Doc) :=
  match groups with
  | [] => [(s, [d])]
  | (s', ds) :: rest =>
      if s' = s then (s', ds ++ [d]) :: rest else (s', ds) :: addToGroup rest s d

/-- `_group_by_source`. -/
def groupBySource (docs : List Doc) : List (String × List Doc) :=
  docs.foldl (fun g d => addToGroup g (srcOf d) d) []

/-- One entry of the `members` list:
`{"id": doc.metadata.get("id") if doc.metadata else None, "meta": doc.metadata}`. -/
structure Member where
  id : Option String
  meta : Option Metadata
deriving DecidableEq

def mkMember (doc : Doc) : Member :=
  { id := doc.metadata.bind Metadata.id, meta := doc.metadata }

/-- `"\n\n".join(parts)`. -/
def joinParts : List String → String
  | [] => ""
  | [p] => p
  | p :: rest => p ++ "\n\n" ++ joinParts rest

/-- Python `str.strip()`: drop leading and trailing whitespace. -/
def pyStrip (s : String) : String :=
  ⟨((s.data.dropWhile Char.isWhitespace).reverse.dropWhile Char.isWhitespace).reverse⟩

/-- The flushed text: `"\n\n".join(cur_text_parts).strip()`. -/
def mergedText (parts : List String) : String := pyStrip (joinParts parts)

/-- The output unit: a LangChain document with merge metadata
(`source`, `merged_from_count`, `members`). -/
structure MergedDoc where
  page_content : String
  source : String
  merged_from_count : ℕ
  members : List Member
deriving DecidableEq

def mkMerged (src : String) (parts : List String) (mems : List Member) : MergedDoc :=
  { page_content := mergedText parts, source := src,
    merged_from_count := mems.length, members := mems }

/-- The per-group accumulation loop of `retrieve`: walk the ordered docs,
flushing the buffer when appending would cross the char limit or the member
cap, then appending; flush the non-empty remainder at the end. -/
def mergeLoop (cl mx : ℤ) (src : String) :
    List String → List Member → ℤ → ℤ → List MergedDoc → List Doc → List MergedDoc
  | parts, mems, _, _, acc, [] =>
      if parts.isEmpty then acc else acc ++ [mkMerged src parts mems]
  | parts, mems, clen, ccount, acc, doc :: rest =>
      let txt := doc.page_content
      if ¬ parts.isEmpty ∧ (cl < clen + (txt.length : ℤ) ∨ mx < ccount + 1) then
        mergeLoop cl mx src [txt] [mkMember doc] (txt.length : ℤ) 1
          (acc ++ [mkMerged src parts mems]) rest
      else
        mergeLoop cl mx src (parts ++ [txt]) (mems ++ [mkMember doc])
          (clen + (txt.length : ℤ)) (ccount + 1) acc rest

/-- `AutoMergingRetriever.retrieve`, as a function of the candidate list
fetched from the (external) base retriever, with the configured
`merge_char_limit` and `max_chunks_per_merge`. -/
def retrieve (cl mx : ℤ) (candidates : List Doc) : List MergedDoc :=
  (groupBySource candidates).foldl
    (fun acc g => mergeLoop cl mx g.1 [] [] 0 0 acc (orderDocs g.2)) []

/-- Sum of the member texts' lengths (the quantity the source tracks as
`cur_len`). -/
def sumLens (parts : List String) : ℤ := ((parts.map String.length).sum : ℤ)

/-- The amended merge bound: a multi-member unit's final text stays within
the character budget plus the two-character separators. -/
def GoodMerged (cl : ℤ) (m : MergedDoc) : Prop :=
  2 ≤ m.merged_from_count →
    (m.page_content.length : ℤ) ≤ cl + 2 * ((m.merged_from_count : ℤ) - 1)

/-! ## RAG strategies (src/services/rag_strategies/)

`generate_answer` is textually identical in `BasicRAGStrategy`,
`FusionRAGStrategy` and `ReRankRAGStrategy`; each is embedded separately,
mirroring the source.  The external collaborators (template store, LLM
client) are abstract function records; the last component of the result
counts how many times `generation_client.generate_text` was invoked. -/

structure ChatMsg where
  role : String
  content : String

structure RetrievedDocument where
  text : String
  score : ℚ
deriving DecidableEq

structure GenerationClient where
  generateText : String → List ChatMsg → Option String
  processText : String → String
  constructPrompt : String → String → ChatMsg
  systemRoleValue : String

structure TemplateParser where
  get : String → String → List (String × String) → String

def BasicRAGStrategy.generateAnswer (tp : TemplateParser) (gen : GenerationClient)
    (query : String) (retrieved_documents : List RetrievedDocument)
    (chat_history : List ChatMsg) : Option String × String × ℕ :=
  if retrieved_documents.isEmpty then (none, "", 0)
  else
    let system_prompt := tp.get "rag" "system_prompt" []
    let documents_prompts := String.intercalate "\n"
      (retrieved_documents.enum.map (fun p =>
        tp.get "rag" "document_prompt"
          [("doc_num", toString (p.1 + 1)), ("chunk_text", gen.processText p.2.text)]))
    let footer_prompt := tp.get "rag" "footer_prompt" [("query", query)]
    let full_prompt := String.intercalate "\n\n" [documents_prompts, footer_prompt]
    let final_chat_history := [gen.constructPrompt system_prompt gen.systemRoleValue] ++ chat_history
    let answer := gen.generateText full_prompt final_chat_history
    (answer, full_prompt, 1)

def FusionRAGStrategy.generateAnswer (tp : TemplateParser) (gen : GenerationClient)
    (query : String) (retrieved_documents : List RetrievedDocument)
    (chat_history : List ChatMsg) : Option String × String × ℕ :=
  if retrieved_documents.isEmpty then (none, "", 0)
  else
    let system_prompt := tp.get "rag" "system_prompt" []
    let documents_prompts := String.intercalate "\n"
      (retrieved_documents.enum.map (fun p =>
        tp.get "rag" "document_prompt"
          [("doc_num", toString (p.1 + 1)), ("chunk_text", gen.processText p.2.text)]))
    let footer_prompt := tp.get "rag" "footer_prompt" [("query", query)]
    let full_prompt := String.intercalate "\n\n" [documents_prompts, footer_prompt]
    let final_chat_history := [gen.constructPrompt system_prompt gen.systemRoleValue] ++ chat_history
    let answer := gen.generateText full_prompt final_chat_history
    (answer, full_prompt, 1)

def ReRankRAGStrategy.generateAnswer (tp : TemplateParser) (gen : GenerationClient)
    (query : String) (retrieved_documents : List RetrievedDocument)
    (chat_history : List ChatMsg) : Option String × String × ℕ :=
  if retrieved_documents.isEmpty then (none, "", 0)
  else
    let system_prompt := tp.get "rag" "system_prompt" []
    let documents_prompts := String.intercalate "\n"
      (retrieved_documents.enum.map (fun p =>
        tp.get "rag" "document_prompt"
          [("doc_num", toString (p.1 + 1)), ("chunk_text", gen.processText p.2.text)]))
    let footer_prompt := tp.get "rag" "footer_prompt" [("query", query)]
    let full_prompt := String.intercalate "\n\n" [documents_prompts, footer_prompt]
    let final_chat_history := [gen.constructPrompt system_prompt gen.systemRoleValue] ++ chat_history
    let answer := gen.generateText full_prompt final_chat_history
    (answer, full_prompt, 1)

/-! ### FusionRAGStrategy._generate_query_variations

```python
if not response: return [original_query]
variations = [original_query]
lines = [line.strip() for line in response.split('\n') if line.strip()]
for line in lines[:self.num_queries - 1]:
    cleaned = line.lstrip('0123456789.-) ').strip()
    if cleaned and len(cleaned) > 10:
        variations.append(cleaned)
return variations
```
A `none` response models both an absent generation result and the
`except` fallback (both return `[original_query]`). -/

/-- Python slice `l[:n]`, including negative `n`. -/
def pyTake {α : Type} (n : ℤ) (l : List α) : List α :=
  if 0 ≤ n then l.take n.toNat else l.take ((l.length : ℤ) + n).toNat

/-- The characters stripped from the front of a line:
`'0123456789.-) '`. -/
def enumStripChars : List Char := "0123456789.-) ".data

/-- `line.lstrip('0123456789.-) ').strip()`. -/
def cleanLine (line : String) : String :=
  pyStrip ⟨line.data.dropWhile (fun c => c ∈ enumStripChars)⟩

/-- Python `s.split('\n')`: split at every newline, keeping empty pieces. -/
def splitNl : List Char → List (List Char)
  | [] => [[]]
  | c :: cs =>
      if c = '\n' then [] :: splitNl cs
      else
        match splitNl cs with
        | [] => [[c]]
        | l :: ls => (c :: l) :: ls

/-- `[line.strip() for line in response.split('\n') if line.strip()]`. -/
def splitStrippedLines (resp : String) : List String :=
  ((splitNl resp.data).map (fun l => pyStrip ⟨l⟩)).filter (fun l => l ≠ "")

/-- `FusionRAGStrategy._generate_query_variations`, as a function of the
generation collaborator's response. -/
def generateQueryVariations (num_queries : ℤ) (original_query : String)
    (response : Option String) : List String :=
  match response with
  | none => [original_query]
  | some resp =>
      if resp = "" then [original_query]
      else
        let lines := splitStrippedLines resp
        let kept := (pyTake (num_queries - 1) lines).filterMap (fun line =>
          let cleaned := cleanLine line
          if cleaned ≠ "" ∧ 10 < cleaned.length then some cleaned else none)
        original_query :: kept

/-- Spec-side keep rule for the amended C8: a stripped line is kept exactly
when its cleaned form is strictly longer than 10 characters. -/
def specKeepLine (line : String) : Bool := decide (10 < (cleanLine line).length)

/-- Amended spec-side variant parsing: original query first, then the cleaned
forms of the kept lines among the first `num_queries - 1` non-blank lines. -/
def specVariations (num_queries : ℤ) (original_query : String)
    (response : Option String) : List String :=
  match response with
  | none => [original_query]
  | some resp =>
      if resp = "" then [original_query]
      else
        original_query ::
          (((pyTake (num_queries - 1) (splitStrippedLines resp)).filter
            specKeepLine).map cleanLine)

/-! ### ReRankRAGStrategy._parse_ranking and _rerank_documents

```python
numbers = re.findall(r'\d+', response)
ranking = [int(n) - 1 for n in numbers if n.isdigit()]
ranking = [idx for idx in ranking if 0 <= idx < num_docs]
remaining = [i for i in range(num_docs) if i not in ranking]
ranking.extend(remaining)
```
Every `re.findall(r'\d+', ...)` match is a non-empty all-digit string, so the
`n.isdigit()` guard is always true and is not modelled separately. -/

/-- Maximal runs of digit characters (`re.findall(r'\d+', s)`), with the
current run accumulated in reverse. -/
def digitRunsAux (cur : List Char) : List Char → List String
  | [] => if cur.isEmpty then [] else [⟨cur.reverse⟩]
  | c :: cs =>
      if c.isDigit then digitRunsAux (c :: cur) cs
      else if cur.isEmpty then digitRunsAux [] cs
      else ⟨cur.reverse⟩ :: digitRunsAux [] cs

def digitRuns (s : String) : List String := digitRunsAux [] s.data

/-- `int(n)` on an all-digit string. -/
def parseNat (s : String) : ℕ := s.data.foldl (fun a c => a * 10 + (c.toNat - 48)) 0

/-- `ReRankRAGStrategy._parse_ranking`. -/
def parseRanking (response : String) (num_docs : ℕ) : List ℤ :=
  let numbers := digitRuns response
  let ranking0 := numbers.map (fun n => (parseNat n : ℤ) - 1)
  let ranking1 := ranking0.filter (fun idx => 0 ≤ idx ∧ idx < (num_docs : ℤ))
  ranking1 ++ ((List.range num_docs).map (fun i => (i : ℤ))).filter (fun i => i ∉ ranking1)

/-- The reorder loop of `_rerank_documents`: walk `ranking[:top_k]`, keeping
in-range indices and assigning the synthetic score
`1.0 - len(reranked)/top_k`. -/
def reorderAux (documents : List RetrievedDocument) (top_k : ℕ) :
    List RetrievedDocument → List ℤ → List RetrievedDocument
  | reranked, [] => reranked
  | reranked, rank_idx :: rest =>
      if 0 ≤ rank_idx ∧ rank_idx < (documents.length : ℤ) then
        let doc := documents.getD rank_idx.toNat { text := "", score := 0 }
        let new_score : ℚ := 1 - (reranked.length : ℚ) / (top_k : ℚ)
        reorderAux documents top_k (reranked ++ [{ text := doc.text, score := new_score }]) rest
      else reorderAux documents top_k reranked rest

/-- `ReRankRAGStrategy._rerank_documents`, as a function of the generation
collaborator's response (a `none`/empty response falls back to the original
top-`top_k` order, as does an empty reorder result). -/
def rerankDocuments (documents : List RetrievedDocument) (top_k : ℕ)
    (response : Option String) : List RetrievedDocument :=
  match response with
  | none => documents.take top_k
  | some resp =>
      if resp = "" then documents.take top_k
      else
        let ranking := parseRanking resp documents.length
        let reranked := reorderAux documents top_k [] (ranking.take top_k)
        if reranked.isEmpty then documents.take top_k else reranked

/-! # Theorems -/

/-- C2 counterexample: on `fuse([["a","b","c"],["b","c","a"]], k=60, top_k=3)`
the output order is `["b","a","c"]`, so `"c"` is ranked below `"a"` — the
claim that both `"b"` and `"c"` outrank `"a"` is false ("a" also appears in
both lists, and its summed score `1/61 + 1/63` exceeds "c"'s
`1/62 + 1/63`). -/
theorem fuse_scenario_counterexample :
    fuse [["a", "b", "c"], ["b", "c", "a"]] 60 3 = ["b", "a", "c"] ∧
    ¬ ((fuse [["a", "b", "c"], ["b", "c", "a"]] 60 3).indexOf "c"
        < (fuse [["a", "b", "c"], ["b", "c", "a"]] 60 3).indexOf "a") := by
  have h : fuse [["a", "b", "c"], ["b", "c", "a"]] 60 3 = ["b", "a", "c"] := by
    norm_num [fuse, scoreRankingAux, addScore, rrfScore, sortByScoreDesc, insertByScore]
  exact ⟨h, by rw [h]; decide⟩

/-- C2 (amended): `fuse([["a","b","c"],["b","c","a"]], k=60, top_k=3)`
returns exactly `["b","a","c"]`: `"b"` outranks `"a"`, but `"a"` outranks
`"c"`. -/
theorem fuse_scenario_order :
    fuse [["a", "b", "c"], ["b", "c", "a"]] 60 3 = ["b", "a", "c"] := by
  norm_num [fuse, scoreRankingAux, addScore, rrfScore, sortByScoreDesc, insertByScore]

/-- C4: for every strategy (Basic, Fusion, ReRank), every query, collaborator
set and chat history, `generate_answer` on an empty retrieved-document list
returns the absent answer and the empty prompt, and performs zero calls to
the generation collaborator (the third component counts `generate_text`
invocations). -/
theorem strategies_empty_guard (tp : TemplateParser) (gen : GenerationClient)
    (q : String) (history : List ChatMsg) :
    BasicRAGStrategy.generateAnswer tp gen q [] history = (none, "", 0) ∧
    FusionRAGStrategy.generateAnswer tp gen q [] history = (none, "", 0) ∧
    ReRankRAGStrategy.generateAnswer tp gen q [] history = (none, "", 0) :=
  ⟨rfl, rfl, rfl⟩

/-- C6: whenever the cross-encoder failed to initialize (`enabled` false or
`model` absent), `rerank` returns exactly the first `top_k` docs in input
order, each with constant score 1.0. -/
theorem rerank_disabled (r : Reranker) (q : String) (docs : List String)
    (top_k : ℕ) (h : r.enabled = false ∨ r.model = none) :
    r.rerank q docs top_k = (docs.take top_k).map (fun d => (d, 1)) := by
  rcases r with ⟨e, mo⟩
  rcases h with h | h
  · subst h; simp [Reranker.rerank]
  · subst h; cases e <;> simp [Reranker.rerank]

/-- C6 witness: `rerank(q, [a,b,c], top_k=2)` on a disabled reranker is
`[(a,1.0), (b,1.0)]`. -/
theorem rerank_disabled_witness :
    Reranker.rerank { enabled := false, model := none } "q" ["a", "b", "c"] 2 =
      [("a", 1), ("b", 1)] := by
  have h := rerank_disabled { enabled := false, model := none } "q" ["a", "b", "c"] 2
    (Or.inl rfl)
  simpa using h

/-- C7: for every `rag_type` outside `{basic, fusion, rerank}` and any
supplied tunables, `create_strategy` returns the Basic strategy, whose
`get_strategy_name()` equals the Basic strategy's name. -/
theorem rag_factory_fallback (rt : String) (nq rm : Option ℕ)
    (h1 : rt ≠ "basic") (h2 : rt ≠ "fusion") (h3 : rt ≠ "rerank") :
    createStrategy rt nq rm = Strategy.basic ∧
    getStrategyName (createStrategy rt nq rm) = getStrategyName Strategy.basic := by
  simp [createStrategy, h1, h2, h3]

/-- C7 witness: `create_strategy("nonexistent_type")` yields the Basic
strategy. -/
theorem rag_factory_fallback_witness :
    createStrategy "nonexistent_type" none none = Strategy.basic ∧
    getStrategyName (createStrategy "nonexistent_type" none none) =
      getStrategyName Strategy.basic :=
  rag_factory_fallback "nonexistent_type" none none (by decide) (by decide) (by decide)

/-- C10: the LLM-ranking parser does not deduplicate repeated indices: on the
response `"1, 1, 2"` over two documents, the parsed ranking is `[0, 0, 1]`
(index 0 twice), and the reranked list returned for `top_k = 2` holds the
text of document 0 at both positions. -/
theorem rerank_duplicate_indices :
    parseRanking "1, 1, 2" 2 = [0, 0, 1] ∧
    (rerankDocuments [{ text := "A", score := 9/10 }, { text := "B", score := 4/5 }] 2
        (some "1, 1, 2")).map RetrievedDocument.text = ["A", "A"] := by
  constructor
  · decide
  · rfl

/-- C8 counterexample: a response consisting of one line of exactly 10
characters yields no variant — the code keeps a cleaned line only when it is
strictly longer than 10 characters, so a 10-character line (which the claim
says is kept) is discarded and only the original query is returned. -/
theorem variant_parsing_counterexample :
    generateQueryVariations 3 "orig" (some "abcdefghij") = ["orig"] := by decide

/-! ### Association-list lemmas for the fusion score map -/

theorem getScore_addScore (sc : List (String × ℚ)) (d : String) (v : ℚ) (t : String) :
    getScore (addScore sc d v) t = getScore sc t + (if d = t then v else 0) := by
  induction sc with
  | nil => by_cases h : d = t <;> simp [addScore, getScore, h]
  | cons p rest ih =>
      obtain ⟨d', s⟩ := p
      by_cases h1 : d' = d
      · subst h1
        by_cases h2 : d' = t <;> simp [addScore, getScore, h2]
      · by_cases h2 : d' = t
        · subst h2
          have : ¬ d = d' := fun e => h1 e.symm
          simp [addScore, getScore, h1, this]
        · simp [addScore, getScore, h1, h2, ih]

theorem keysOf_addScore (sc : List (String × ℚ)) (d : String) (v : ℚ) :
    keysOf (addScore sc d v) = insertKey (keysOf sc) d := by
  induction sc with
  | nil => simp [addScore, keysOf, insertKey]
  | cons p rest ih =>
      obtain ⟨d', s⟩ := p
      by_cases h1 : d' = d
      · subst h1; simp [addScore, keysOf, insertKey]
      · have h2 : ¬ d = d' := fun e => h1 e.symm
        simp only [addScore, if_neg h1, keysOf, List.map_cons] at ih ⊢
        rw [ih]
        simp only [insertKey, List.mem_cons, h2, false_or]
        by_cases h3 : d ∈ List.map Prod.fst rest
        · simp [h3]
        · simp [h3]

theorem getScore_eq_zero_of_not_mem (sc : List (String × ℚ)) (t : String)
    (h : t ∉ keysOf sc) : getScore sc t = 0 := by
  induction sc with
  | nil => simp [getScore]
  | cons p rest ih =>
      obtain ⟨d, s⟩ := p
      simp only [keysOf, List.map_cons, List.mem_cons] at h
      push_neg at h
      have hd : ¬ d = t := fun e => h.1 e.symm
      simpa [getScore, hd] using ih (by simpa [keysOf] using h.2)

theorem mem_insertKey (acc : List String) (d x : String) :
    x ∈ insertKey acc d ↔ x ∈ acc ∨ x = d := by
  by_cases h : d ∈ acc
  · simp only [insertKey, if_pos h]
    constructor
    · exact fun hx => Or.inl hx
    · rintro (hx | rfl) <;> [exact hx; exact h]
  · simp [insertKey, if_neg h]

theorem nodup_insertKey (acc : List String) (d : String) (h : acc.Nodup) :
    (insertKey acc d).Nodup := by
  by_cases hm : d ∈ acc
  · simpa [insertKey, hm] using h
  · simp only [insertKey, if_neg hm]
    simpa [List.nodup_append] using ⟨h, hm⟩

theorem mem_foldl_insertKey (r : List String) :
    ∀ (acc : List String) (x : String),
      x ∈ r.foldl insertKey acc ↔ x ∈ acc ∨ x ∈ r := by
  induction r with
  | nil => simp
  | cons d ds ih =>
      intro acc x
      simp only [List.foldl_cons, ih, mem_insertKey, List.mem_cons]
      tauto

theorem nodup_foldl_insertKey (r : List String) :
    ∀ acc : List String, acc.Nodup → (r.foldl insertKey acc).Nodup := by
  induction r with
  | nil => exact fun _ h => h
  | cons d ds ih =>
      intro acc h
      exact ih _ (nodup_insertKey acc d h)

/-! ### The imperative score fold versus the spec description -/

theorem getScore_scoreRankingAux (k : ℕ) (r : List String) :
    ∀ (rank : ℕ) (sc : List (String × ℚ)) (t : String),
      getScore (scoreRankingAux k rank sc r) t = getScore sc t + occScoreFrom k rank t r := by
  induction r with
  | nil => intro rank sc t; simp [scoreRankingAux, occScoreFrom]
  | cons d ds ih =>
      intro rank sc t
      simp only [scoreRankingAux, occScoreFrom, ih, getScore_addScore]
      ring

theorem keysOf_scoreRankingAux (k : ℕ) (r : List String) :
    ∀ (rank : ℕ) (sc : List (String × ℚ)),
      keysOf (scoreRankingAux k rank sc r) = r.foldl insertKey (keysOf sc) := by
  induction r with
  | nil => intro rank sc; simp [scoreRankingAux]
  | cons d ds ih =>
      intro rank sc
      simp only [scoreRankingAux, List.foldl_cons, ih, keysOf_addScore]

theorem foldl_add_shift (f : List String → ℚ) (rs : List (List String)) :
    ∀ c : ℚ, rs.foldl (fun a r => a + f r) c = c + rs.foldl (fun a r => a + f r) 0 := by
  induction rs with
  | nil => intro c; simp
  | cons r rs ih =>
      intro c
      simp only [List.foldl_cons]
      rw [ih (c + f r), ih (0 + f r)]
      ring

theorem getScore_fuse_fold (k : ℕ) (results : List (List String)) :
    ∀ (sc : List (String × ℚ)) (t : String),
      getScore (results.foldl (fun sc r => scoreRankingAux k 0 sc r) sc) t =
        getScore sc t + results.foldl (fun acc r => acc + occScoreFrom k 0 t r) 0 := by
  induction results with
  | nil => intro sc t; simp
  | cons r rs ih =>
      intro sc t
      simp only [List.foldl_cons]
      rw [ih, getScore_scoreRankingAux, foldl_add_shift (fun r => occScoreFrom k 0 t r) rs (0 + occScoreFrom k 0 t r)]
      ring

theorem keysOf_fuse_fold (k : ℕ) (results : List (List String)) :
    ∀ sc : List (String × ℚ),
      keysOf (results.foldl (fun sc r => scoreRankingAux k 0 sc r) sc) =
        results.foldl (fun acc r => r.foldl insertKey acc) (keysOf sc) := by
  induction results with
  | nil => intro sc; simp
  | cons r rs ih =>
      intro sc
      simp only [List.foldl_cons]
      rw [ih, keysOf_scoreRankingAux]

theorem assoc_eq_of_keys_getScore :
    ∀ (l1 l2 : List (String × ℚ)), keysOf l1 = keysOf l2 → (keysOf l1).Nodup →
      (∀ t, getScore l1 t = getScore l2 t) → l1 = l2 := by
  intro l1
  induction l1 with
  | nil =>
      intro l2 hk _ _
      cases l2 with
      | nil => rfl
      | cons p l2 => simp [keysOf] at hk
  | cons p l1 ih =>
      intro l2 hk hn hs
      cases l2 with
      | nil => simp [keysOf] at hk
      | cons q l2 =>
          obtain ⟨d1, s1⟩ := p
          obtain ⟨d2, s2⟩ := q
          simp only [keysOf, List.map_cons, List.cons.injEq] at hk
          obtain ⟨hd, ht⟩ := hk
          subst hd
          have hs1 : s1 = s2 := by
            have := hs d1
            simpa [getScore] using this
          subst hs1
          simp only [keysOf, List.map_cons, List.nodup_cons] at hn
          have htail : ∀ t, getScore l1 t = getScore l2 t := by
            intro t
            by_cases h : d1 = t
            · subst h
              rw [getScore_eq_zero_of_not_mem l1 d1 (by simpa [keysOf] using hn.1),
                getScore_eq_zero_of_not_mem l2 d1 (by simp only [keysOf]; rw [← ht]; simpa [keysOf] using hn.1)]
            · have := hs t
              simpa [getScore, h] using this
          have := ih l2 (by simpa [keysOf] using ht) (by simpa [keysOf] using hn.2) htail
          rw [this]

theorem getScore_map_pair (ks : List String) (f : String → ℚ) (t : String) :
    getScore (ks.map fun s => (s, f s)) t = if t ∈ ks then f t else 0 := by
  induction ks with
  | nil => simp [getScore]
  | cons d ks ih =>
      by_cases h : d = t
      · subst h; simp [getScore]
      · have h2 : ¬ t = d := fun e => h e.symm
        simp [getScore, h, h2, ih]

theorem occScoreFrom_eq_zero (k : ℕ) (t : String) (r : List String) :
    ∀ rank : ℕ, t ∉ r → occScoreFrom k rank t r = 0 := by
  induction r with
  | nil => intro rank _; simp [occScoreFrom]
  | cons d ds ih =>
      intro rank h
      simp only [List.mem_cons, not_or] at h
      have hd : ¬ d = t := fun e => h.1 e.symm
      simp [occScoreFrom, hd, ih (rank + 1) h.2]

theorem specScore_eq_zero (results : List (List String)) (k : ℕ) (t : String)
    (h : ∀ r ∈ results, t ∉ r) : specScore results k t = 0 := by
  unfold specScore
  induction results with
  | nil => simp
  | cons r rs ih =>
      simp only [List.foldl_cons]
      rw [foldl_add_shift]
      rw [occScoreFrom_eq_zero k t r 0 (h r (by simp))]
      have := ih (fun r hr => h r (List.mem_cons_of_mem _ hr))
      simpa using this

theorem nodup_specKeys (results : List (List String)) : (specKeys results).Nodup := by
  unfold specKeys
  have h : ∀ (rs : List (List String)) (acc : List String), acc.Nodup →
      (rs.foldl (fun acc r => r.foldl insertKey acc) acc).Nodup := by
    intro rs
    induction rs with
    | nil => exact fun _ h => h
    | cons r rs ih =>
        intro acc hacc
        exact ih _ (nodup_foldl_insertKey r acc hacc)
  exact h results [] (by simp)

theorem mem_specKeys (results : List (List String)) (t : String) :
    t ∈ specKeys results ↔ ∃ r ∈ results, t ∈ r := by
  unfold specKeys
  have h : ∀ (rs : List (List String)) (acc : List String),
      t ∈ rs.foldl (fun acc r => r.foldl insertKey acc) acc ↔
        t ∈ acc ∨ ∃ r ∈ rs, t ∈ r := by
    intro rs
    induction rs with
    | nil => intro acc; simp
    | cons r rs ih =>
        intro acc
        simp only [List.foldl_cons, ih, mem_foldl_insertKey, List.mem_cons]
        constructor
        · rintro ((h | h) | ⟨r', hr', ht⟩)
          · exact Or.inl h
          · exact Or.inr ⟨r, Or.inl rfl, h⟩
          · exact Or.inr ⟨r', Or.inr hr', ht⟩
        · rintro (h | ⟨r', hr' | hr', ht⟩)
          · exact Or.inl (Or.inl h)
          · subst hr'; exact Or.inl (Or.inr ht)
          · exact Or.inr ⟨r', hr', ht⟩
  simpa using h results []

theorem fuse_fold_eq_spec (results : List (List String)) (k : ℕ) :
    results.foldl (fun sc r => scoreRankingAux k 0 sc r) [] =
      (specKeys results).map fun t => (t, specScore results k t) := by
  apply assoc_eq_of_keys_getScore
  · rw [keysOf_fuse_fold]
    simp only [keysOf, List.map_map, List.map_nil]
    have h : (Prod.fst ∘ fun t => (t, specScore results k t)) = id := rfl
    rw [h, List.map_id]
    rfl
  · rw [keysOf_fuse_fold]
    simp only [keysOf, List.map_nil]
    exact nodup_specKeys results
  · intro t
    rw [getScore_fuse_fold, getScore_map_pair]
    simp only [getScore, zero_add]
    by_cases h : t ∈ specKeys results
    · simp only [if_pos h]
      rfl
    · simp only [if_neg h]
      have hz : ∀ r ∈ results, t ∉ r := by
        intro r hr hmem
        exact h ((mem_specKeys results t).2 ⟨r, hr, hmem⟩)
      exact specScore_eq_zero results k t hz

/-- C3: the Reciprocal Rank Fusion contract: `fuse` equals the spec-side
description (each distinct text scored with the additive sum of
`1/(k + rank + 1)` over all occurrences across all rankings, stable
descending sort, texts of the top `top_k` only); an empty ranking
contributes nothing, and an empty list of rankings yields the empty
output — totality of the Lean function embeds "does not raise". -/
theorem fuse_rrf_contract (results : List (List String)) (k top_k : ℕ) :
    fuse results k top_k = specFuse results k top_k ∧
    fuse ([] :: results) k top_k = fuse results k top_k ∧
    fuse [] k top_k = [] := by
  refine ⟨?_, rfl, by simp [fuse, sortByScoreDesc]⟩
  unfold fuse specFuse
  rw [fuse_fold_eq_spec]

/-! ### Singleton-input fusion (C5) -/

theorem keysOf_append (a b : List (String × ℚ)) :
    keysOf (a ++ b) = keysOf a ++ keysOf b := by
  simp [keysOf]

theorem addScore_append_of_not_mem (sc : List (String × ℚ)) (d : String) (v : ℚ)
    (h : d ∉ keysOf sc) : addScore sc d v = sc ++ [(d, v)] := by
  induction sc with
  | nil => simp [addScore]
  | cons p rest ih =>
      obtain ⟨d', s⟩ := p
      simp only [keysOf, List.map_cons, List.mem_cons, not_or] at h
      have hd : ¬ d' = d := fun e => h.1 e.symm
      simp [addScore, hd, ih (by simpa [keysOf] using h.2)]

theorem scoreRankingAux_of_nodup (k : ℕ) (r : List String) :
    ∀ (rank : ℕ) (sc : List (String × ℚ)), r.Nodup → (∀ d ∈ r, d ∉ keysOf sc) →
      scoreRankingAux k rank sc r = sc ++ rankScores k rank r := by
  induction r with
  | nil => intro rank sc _ _; simp [scoreRankingAux, rankScores]
  | cons d ds ih =>
      intro rank sc hnd hdisj
      simp only [scoreRankingAux, rankScores]
      rw [addScore_append_of_not_mem sc d _ (hdisj d (by simp))]
      rw [List.nodup_cons] at hnd
      rw [ih (rank + 1) (sc ++ [(d, rrfScore k rank)]) hnd.2 ?_]
      · simp
      · intro e he
        rw [keysOf_append]
        simp only [List.mem_append, not_or]
        refine ⟨hdisj e (List.mem_cons_of_mem _ he), ?_⟩
        have : e ≠ d := fun hc => hnd.1 (hc ▸ he)
        simp [keysOf, this]

theorem map_fst_rankScores (k : ℕ) (r : List String) :
    ∀ rank : ℕ, (rankScores k rank r).map Prod.fst = r := by
  induction r with
  | nil => intro rank; simp [rankScores]
  | cons d ds ih => intro rank; simp [rankScores, ih (rank + 1)]

theorem rrfScore_succ_le (k rank : ℕ) : rrfScore k (rank + 1) ≤ rrfScore k rank := by
  unfold rrfScore
  have h1 : (0 : ℚ) < (k : ℚ) + (rank : ℚ) + 1 := by positivity
  have h2 : (k : ℚ) + (rank : ℚ) + 1 ≤ (k : ℚ) + ((rank : ℕ) + 1 : ℕ) + 1 := by
    push_cast; linarith
  exact one_div_le_one_div_of_le h1 h2

theorem chain_rankScores (k : ℕ) (r : List String) :
    ∀ rank : ℕ, List.Chain' (fun a b : String × ℚ => b.2 ≤ a.2) (rankScores k rank r) := by
  induction r with
  | nil => intro rank; simp [rankScores]
  | cons d ds ih =>
      intro rank
      cases ds with
      | nil => simp [rankScores]
      | cons e es =>
          have hch := ih (rank + 1)
          simp only [rankScores] at hch ⊢
          exact List.chain'_cons.2 ⟨rrfScore_succ_le k rank, hch⟩

theorem sortByScoreDesc_eq_self (l : List (String × ℚ))
    (h : List.Chain' (fun a b : String × ℚ => b.2 ≤ a.2) l) :
    sortByScoreDesc l = l := by
  induction l with
  | nil => rfl
  | cons x xs ih =>
      cases xs with
      | nil => rfl
      | cons y ys =>
          rw [List.chain'_cons] at h
          simp only [sortByScoreDesc] at ih ⊢
          rw [ih h.2]
          simp [insertByScore, h.1]

/-- C5 (amended): for every duplicate-free ranking, every `k` and every
`top_k`, `fuse([ranking], k, top_k)` returns the first `top_k` entries of
`ranking` in order (within one list the scores `1/(k+rank+1)` are
monotonically decreasing with rank, so the stable descending sort is the
identity).  Rankings with repeated entries are excluded — a repeated text
accumulates its contributions and can overtake (see the counterexample). -/
theorem fuse_singleton (ranking : List String) (k top_k : ℕ) (h : ranking.Nodup) :
    fuse [ranking] k top_k = ranking.take top_k := by
  show ((sortByScoreDesc ([ranking].foldl (fun sc r => scoreRankingAux k 0 sc r) [])).map
    Prod.fst).take top_k = ranking.take top_k
  have h1 : [ranking].foldl (fun sc r => scoreRankingAux k 0 sc r) [] =
      rankScores k 0 ranking := by
    have h2 := scoreRankingAux_of_nodup k ranking 0 [] h (by simp [keysOf])
    simpa using h2
  rw [h1, sortByScoreDesc_eq_self _ (chain_rankScores k ranking 0),
    map_fst_rankScores k ranking 0]

/-- C5 witness: `fuse([["a","b","c"]], 60, 2) = ["a","b"]`. -/
theorem fuse_singleton_witness :
    (["a", "b", "c"] : List String).Nodup ∧ fuse [["a", "b", "c"]] 60 2 = ["a", "b"] :=
  ⟨by decide, fuse_singleton ["a", "b", "c"] 60 2 (by decide)⟩

/-- C5 counterexample: for the ranking `["a","b","b"]` (with a duplicate),
`fuse([ranking], 60, 2)` returns `["b","a"]`, not the first two entries
`["a","b"]`: the duplicated `"b"` accumulates `1/62 + 1/63 > 1/61`. -/
theorem fuse_singleton_counterexample :
    fuse [["a", "b", "b"]] 60 2 = ["b", "a"] ∧
    fuse [["a", "b", "b"]] 60 2 ≠ (["a", "b", "b"] : List String).take 2 := by
  have h : fuse [["a", "b", "b"]] 60 2 = ["b", "a"] := by
    norm_num [fuse, scoreRankingAux, addScore, rrfScore, sortByScoreDesc, insertByScore]
  exact ⟨h, by rw [h]; decide⟩

/-! ### Variant parsing (C8) -/

theorem filterMap_keep_eq (lines : List String) :
    lines.filterMap (fun line =>
      let cleaned := cleanLine line
      if cleaned ≠ "" ∧ 10 < cleaned.length then some cleaned else none) =
    (lines.filter specKeepLine).map cleanLine := by
  induction lines with
  | nil => rfl
  | cons l ls ih =>
      simp only [List.filterMap_cons, List.filter_cons]
      by_cases h : 10 < (cleanLine l).length
      · have hne : cleanLine l ≠ "" := by
          intro e
          rw [e] at h
          simp at h
        rw [if_pos (show cleanLine l ≠ "" ∧ 10 < (cleanLine l).length from ⟨hne, h⟩)]
        have hk : specKeepLine l = true := by simp [specKeepLine, h]
        rw [hk]
        simp [ih]
      · have hc : ¬(cleanLine l ≠ "" ∧ 10 < (cleanLine l).length) := fun hx => h hx.2
        rw [if_neg hc]
        have hk : specKeepLine l = false := by simp [specKeepLine, h]
        rw [hk]
        simp [ih]

/-- C8 (amended): the variant parser splits the response into lines, strips
leading enumeration digits/punctuation, and — after the original query,
which is always the first variant — keeps, among the first
`num_queries - 1` non-blank lines, exactly the cleaned lines that are
STRICTLY LONGER than 10 characters (a cleaned line of exactly 10 characters
is discarded); it returns the original query alone when generation fails or
yields no usable line. -/
theorem variant_parsing_spec (num_queries : ℤ) (original_query : String)
    (response : Option String) :
    generateQueryVariations num_queries original_query response =
      specVariations num_queries original_query response := by
  match response with
  | none => rfl
  | some resp =>
      by_cases h : resp = ""
      · simp [generateQueryVariations, specVariations, h]
      · simp only [generateQueryVariations, specVariations, if_neg h]
        rw [filterMap_keep_eq]

/-! ### Merge bound (C1) -/

theorem length_dropWhile_le (p : Char → Bool) (l : List Char) :
    (l.dropWhile p).length ≤ l.length := by
  induction l with
  | nil => simp
  | cons c cs ih =>
      by_cases h : p c
      · simp only [List.dropWhile_cons, h, if_true]
        exact le_trans ih (Nat.le_succ _)
      · simp [List.dropWhile_cons, h]

theorem pyStrip_length_le (s : String) : (pyStrip s).length ≤ s.length := by
  show (((s.data.dropWhile Char.isWhitespace).reverse.dropWhile
    Char.isWhitespace).reverse).length ≤ s.data.length
  rw [List.length_reverse]
  calc ((s.data.dropWhile Char.isWhitespace).reverse.dropWhile Char.isWhitespace).length
      ≤ (s.data.dropWhile Char.isWhitespace).reverse.length := length_dropWhile_le _ _
    _ = (s.data.dropWhile Char.isWhitespace).length := List.length_reverse _
    _ ≤ s.data.length := length_dropWhile_le _ _

theorem joinParts_length : ∀ (parts : List String), parts ≠ [] →
    (joinParts parts).length = (parts.map String.length).sum + 2 * (parts.length - 1)
  | [p], _ => by simp [joinParts]
  | p :: q :: rest, _ => by
      have ih := joinParts_length (q :: rest) (by simp)
      show (p ++ "\n\n" ++ joinParts (q :: rest)).length = _
      rw [String.length_append, String.length_append, ih]
      have h2 : ("\n\n" : String).length = 2 := rfl
      rw [h2]
      simp only [List.map_cons, List.sum_cons, List.length_cons]
      omega

theorem sumLens_append (parts : List String) (t : String) :
    sumLens (parts ++ [t]) = sumLens parts + (t.length : ℤ) := by
  simp [sumLens]

theorem mkMerged_good (cl : ℤ) (src : String) (parts : List String) (mems : List Member)
    (hlen : mems.length = parts.length)
    (hb : 2 ≤ parts.length → sumLens parts ≤ cl) :
    GoodMerged cl (mkMerged src parts mems) := by
  intro h2
  simp only [mkMerged] at h2 ⊢
  have hp2 : 2 ≤ parts.length := hlen ▸ h2
  have hsum : sumLens parts ≤ cl := hb hp2
  have hne : parts ≠ [] := by
    intro e
    rw [e] at hp2
    simp at hp2
  have hj := joinParts_length parts hne
  have hs : (mergedText parts).length ≤ (joinParts parts).length := pyStrip_length_le _
  unfold sumLens at hsum
  rw [hlen]
  omega

theorem mergeLoop_good (cl mx : ℤ) (src : String) :
    ∀ (docs : List Doc) (parts : List String) (mems : List Member) (clen ccount : ℤ)
      (acc : List MergedDoc),
      clen = sumLens parts →
      mems.length = parts.length →
      (2 ≤ parts.length → clen ≤ cl) →
      (∀ m ∈ acc, GoodMerged cl m) →
      ∀ m ∈ mergeLoop cl mx src parts mems clen ccount acc docs, GoodMerged cl m := by
  intro docs
  induction docs with
  | nil =>
      intro parts mems clen ccount acc h1 h2 h3 hacc m hm
      simp only [mergeLoop] at hm
      by_cases hp : parts.isEmpty
      · rw [if_pos hp] at hm
        exact hacc m hm
      · rw [if_neg hp] at hm
        rcases List.mem_append.1 hm with h | h
        · exact hacc m h
        · simp only [List.mem_singleton] at h
          subst h
          exact mkMerged_good cl src parts mems h2 (fun hp2 => h1 ▸ h3 hp2)
  | cons doc rest ih =>
      intro parts mems clen ccount acc h1 h2 h3 hacc m hm
      simp only [mergeLoop] at hm
      by_cases hcond :
          ¬ parts.isEmpty ∧ (cl < clen + ((doc.page_content).length : ℤ) ∨ mx < ccount + 1)
      · rw [if_pos hcond] at hm
        refine ih [doc.page_content] [mkMember doc] _ 1 _ ?_ ?_ ?_ ?_ m hm
        · simp [sumLens]
        · rfl
        · intro h2'
          simp at h2'
        · intro m' hm'
          rcases List.mem_append.1 hm' with h | h
          · exact hacc m' h
          · simp only [List.mem_singleton] at h
            subst h
            exact mkMerged_good cl src parts mems h2 (fun hp2 => h1 ▸ h3 hp2)
      · rw [if_neg hcond] at hm
        refine ih (parts ++ [doc.page_content]) (mems ++ [mkMember doc]) _ _ acc ?_ ?_ ?_ hacc m hm
        · rw [h1, sumLens_append]
        · simp [h2]
        · intro h2'
          by_cases hp : parts.isEmpty
          · have hpe : parts = [] := List.isEmpty_iff.1 hp
            subst hpe
            simp at h2'
          · have hno : ¬ (cl < clen + ((doc.page_content).length : ℤ) ∨ mx < ccount + 1) :=
              fun hor => hcond ⟨hp, hor⟩
            rw [not_or] at hno
            have := not_lt.1 hno.1
            omega

/-- C1 counterexample: with `char_limit = 2` and candidates `"a"`, `"b"`
(same — unknown — source), the single output unit has TWO members and text
`"a\n\nb"` of length 4 > 2: the limit check counts only member characters
(`cur_len`), while the flushed text also contains the two-character
`"\n\n"` separators, so a multi-member unit can exceed `char_limit`. -/
theorem merge_bound_counterexample :
    retrieve 2 8 [{ page_content := "a", metadata := none },
      { page_content := "b", metadata := none }] =
      [{ page_content := "a\n\nb", source := "unknown_source", merged_from_count := 2,
         members := [{ id := none, meta := none }, { id := none, meta := none }] }] ∧
    ¬ (∀ m ∈ retrieve 2 8 [{ page_content := "a", metadata := none },
        { page_content := "b", metadata := none }],
        (m.page_content.length : ℤ) ≤ 2 ∨ m.merged_from_count = 1) := by
  constructor
  · decide
  · decide

/-- C1 (amended): for every char limit, member cap and candidate list, every
output unit with at least two members satisfies
`len(text) ≤ char_limit + 2·(member_count − 1)`: the sum of the members' own
characters never exceeds `char_limit` (that is the quantity the append-time
check bounds), and the final text adds exactly one two-character blank-line
separator per junction (then trims).  A single-member unit may exceed the
limit without bound. -/
theorem merge_char_bound (cl mx : ℤ) (candidates : List Doc) :
    ∀ m ∈ retrieve cl mx candidates, 2 ≤ m.merged_from_count →
      (m.page_content.length : ℤ) ≤ cl + 2 * ((m.merged_from_count : ℤ) - 1) := by
  have h : ∀ (gs : List (String × List Doc)) (acc : List MergedDoc),
      (∀ m ∈ acc, GoodMerged cl m) →
      ∀ m ∈ gs.foldl (fun acc g => mergeLoop cl mx g.1 [] [] 0 0 acc (orderDocs g.2)) acc,
        GoodMerged cl m := by
    intro gs
    induction gs with
    | nil => intro acc hacc; exact hacc
    | cons g gs ih =>
        intro acc hacc
        simp only [List.foldl_cons]
        refine ih _ ?_
        intro m hm
        refine mergeLoop_good cl mx g.1 (orderDocs g.2) [] [] 0 0 acc ?_ rfl ?_ hacc m hm
        · simp [sumLens]
        · intro h2
          simp at h2
  intro m hm
  exact h (groupBySource candidates) [] (by simp) m hm

/-- C1 witness: with `char_limit = 100`, the two-member unit built from
`"a"` and `"b"` satisfies the amended bound (4 ≤ 100 + 2). -/
theorem merge_char_bound_witness :
    (((MergedDoc.mk "a\n\nb" "unknown_source" 2
        [Member.mk none none, Member.mk none none]).page_content.length : ℤ)) ≤
      100 + 2 * (((MergedDoc.mk "a\n\nb" "unknown_source" 2
        [Member.mk none none, Member.mk none none]).merged_from_count : ℤ) - 1) := by
  exact merge_char_bound 100 8
    [{ page_content := "a", metadata := none }, { page_content := "b", metadata := none }]
    (MergedDoc.mk "a\n\nb" "unknown_source" 2 [Member.mk none none, Member.mk none none])
    (by decide) (by decide)

/-! ### Merge grouping (C9) -/

theorem mem_insertAsc (x y : Doc) (l : List Doc) : x ∈ insertAsc y l ↔ x = y ∨ x ∈ l := by
  induction l with
  | nil => simp [insertAsc]
  | cons z zs ih =>
      by_cases h : sortKey y ≤ sortKey z
      · simp [insertAsc, h]
      · simp only [insertAsc, if_neg h, List.mem_cons, ih]
        tauto

theorem mem_orderDocs (x : Doc) (l : List Doc) : x ∈ orderDocs l ↔ x ∈ l := by
  induction l with
  | nil => simp [orderDocs]
  | cons y ys ih => simp [orderDocs, mem_insertAsc, ih]

theorem addToGroup_prop (groups : List (String × List Doc)) (s : String) (d : Doc)
    (hg : ∀ g ∈ groups, ∀ e ∈ g.2, srcOf e = g.1) (hd : srcOf d = s) :
    ∀ g ∈ addToGroup groups s d, ∀ e ∈ g.2, srcOf e = g.1 := by
  induction groups with
  | nil =>
      intro g hgmem e he
      simp only [addToGroup, List.mem_singleton] at hgmem
      subst hgmem
      simp only [List.mem_singleton] at he
      subst he
      exact hd
  | cons p rest ih =>
      obtain ⟨s', ds⟩ := p
      by_cases h : s' = s
      · subst h
        intro g hgmem e he
        have heq : addToGroup ((s', ds) :: rest) s' d = (s', ds ++ [d]) :: rest := by
          simp [addToGroup]
        rw [heq, List.mem_cons] at hgmem
        rcases hgmem with h1 | h1
        · subst h1
          rcases List.mem_append.1 he with h2 | h2
          · exact hg (s', ds) (by simp) e h2
          · simp only [List.mem_singleton] at h2
            subst h2
            exact hd
        · exact hg g (List.mem_cons_of_mem _ h1) e he
      · intro g hgmem e he
        simp only [addToGroup, if_neg h, List.mem_cons] at hgmem
        rcases hgmem with h1 | h1
        · subst h1
          exact hg (s', ds) (by simp) e he
        · exact ih (fun g' hg' => hg g' (List.mem_cons_of_mem _ hg')) g h1 e he

theorem groupBySource_prop (docs : List Doc) :
    ∀ g ∈ groupBySource docs, ∀ e ∈ g.2, srcOf e = g.1 := by
  unfold groupBySource
  have h : ∀ (ds : List Doc) (g0 : List (String × List Doc)),
      (∀ g ∈ g0, ∀ e ∈ g.2, srcOf e = g.1) →
      ∀ g ∈ ds.foldl (fun g d => addToGroup g (srcOf d) d) g0, ∀ e ∈ g.2, srcOf e = g.1 := by
    intro ds
    induction ds with
    | nil => intro g0 h0; exact h0
    | cons d ds ih =>
        intro g0 h0
        simp only [List.foldl_cons]
        exact ih _ (addToGroup_prop g0 (srcOf d) d h0 rfl)
  exact h docs [] (by simp)

theorem mergeLoop_sources (cl mx : ℤ) (src : String) :
    ∀ (docs : List Doc) (parts : List String) (mems : List Member) (clen ccount : ℤ)
      (acc : List MergedDoc),
      (∀ mem ∈ mems, srcOfMeta mem.meta = src) →
      (∀ d ∈ docs, srcOf d = src) →
      (∀ m ∈ acc, ∀ mem ∈ m.members, srcOfMeta mem.meta = m.source) →
      ∀ m ∈ mergeLoop cl mx src parts mems clen ccount acc docs,
        ∀ mem ∈ m.members, srcOfMeta mem.meta = m.source := by
  intro docs
  induction docs with
  | nil =>
      intro parts mems clen ccount acc hmems hdocs hacc m hm mem hmem
      simp only [mergeLoop] at hm
      by_cases hp : parts.isEmpty
      · rw [if_pos hp] at hm
        exact hacc m hm mem hmem
      · rw [if_neg hp] at hm
        rcases List.mem_append.1 hm with h | h
        · exact hacc m h mem hmem
        · simp only [List.mem_singleton] at h
          subst h
          exact hmems mem hmem
  | cons doc rest ih =>
      intro parts mems clen ccount acc hmems hdocs hacc m hm mem hmem
      simp only [mergeLoop] at hm
      by_cases hcond :
          ¬ parts.isEmpty ∧ (cl < clen + ((doc.page_content).length : ℤ) ∨ mx < ccount + 1)
      · rw [if_pos hcond] at hm
        refine ih [doc.page_content] [mkMember doc] _ 1 _ ?_ ?_ ?_ m hm mem hmem
        · intro mem' hmem'
          simp only [List.mem_singleton] at hmem'
          subst hmem'
          exact hdocs doc (by simp)
        · intro d hd
          exact hdocs d (List.mem_cons_of_mem _ hd)
        · intro m' hm' mem' hmem'
          rcases List.mem_append.1 hm' with h | h
          · exact hacc m' h mem' hmem'
          · simp only [List.mem_singleton] at h
            subst h
            exact hmems mem' hmem'
      · rw [if_neg hcond] at hm
        refine ih (parts ++ [doc.page_content]) (mems ++ [mkMember doc]) _ _ acc ?_ ?_ hacc m hm mem hmem
        · intro mem' hmem'
          rcases List.mem_append.1 hmem' with h | h
          · exact hmems mem' h
          · simp only [List.mem_singleton] at h
            subst h
            exact hdocs doc (by simp)
        · intro d hd
          exact hdocs d (List.mem_cons_of_mem _ hd)

/-- C9: no output unit mixes members from two different source identifiers —
every member of every output `MergedDocument` carries metadata whose source
identifier (first truthy of `source`, `file_name`, `path`, else the sentinel
`"unknown_source"`) equals the unit's own `source`. -/
theorem merge_grouping (cl mx : ℤ) (candidates : List Doc) :
    ∀ m ∈ retrieve cl mx candidates, ∀ mem ∈ m.members, srcOfMeta mem.meta = m.source := by
  have h : ∀ (gs : List (String × List Doc)) (acc : List MergedDoc),
      (∀ g ∈ gs, ∀ e ∈ g.2, srcOf e = g.1) →
      (∀ m ∈ acc, ∀ mem ∈ m.members, srcOfMeta mem.meta = m.source) →
      ∀ m ∈ gs.foldl (fun acc g => mergeLoop cl mx g.1 [] [] 0 0 acc (orderDocs g.2)) acc,
        ∀ mem ∈ m.members, srcOfMeta mem.meta = m.source := by
    intro gs
    induction gs with
    | nil => intro acc _ hacc; exact hacc
    | cons g gs ih =>
        intro acc hgs hacc
        simp only [List.foldl_cons]
        refine ih _ (fun g' hg' => hgs g' (List.mem_cons_of_mem _ hg')) ?_
        intro m hm
        refine mergeLoop_sources cl mx g.1 (orderDocs g.2) [] [] 0 0 acc ?_ ?_ hacc m hm
        · intro mem hmem
          simp at hmem
        · intro d hd
          exact hgs g (by simp) d ((mem_orderDocs d g.2).1 hd)
  intro m hm
  exact h (groupBySource candidates) [] (groupBySource_prop candidates) (by simp) m hm

/-- C9 witness: a candidate with `source = "s1"` ends up in a unit whose
member metadata resolves to the unit's source `"s1"`. -/
theorem merge_grouping_witness :
    srcOfMeta (Member.mk none (some { source := some "s1" })).meta = "s1" := by
  exact merge_grouping 1500 8
    [{ page_content := "hello", metadata := some { source := some "s1" } }]
    (MergedDoc.mk "hello" "s1" 1 [Member.mk none (some { source := some "s1" })])
    (by decide)
    (Member.mk none (some { source := some "s1" })) (by decide)
